import Mathlib

/-!
Verification of the terminal-emulator / SVG-renderer core of
`scripts/make_screenshots.py`.

The Python source is shallowly embedded below.  Machine integers are `Nat`
(all quantities in the source are nonnegative Python ints, except where a
comment notes an `Int` is used to mirror Python's signed arithmetic).
Fallible Python operations (list indexing by computed index, `int(...)`
conversion) are embedded in `Except PyErr`, so that "the code raises an
exception" is representable as an `error` result.
-/

/-- Python exception kinds that the embedded code can raise. -/
inductive PyErr where
  | indexError
  | valueError
deriving DecidableEq, Repr

/-- An RGB triple, as in the Python `Tuple[int, int, int]`. -/
abbrev RGB := Nat × Nat × Nat

/-- `BASE_COLORS`: the 16-entry palette approximating xterm defaults
(lines 29-46 of the source). -/
def BASE_COLORS : List RGB :=
  [(0, 0, 0), (205, 49, 49), (13, 188, 121), (229, 229, 16),
   (36, 114, 200), (188, 63, 188), (17, 168, 205), (229, 229, 229),
   (102, 102, 102), (241, 76, 76), (35, 209, 139), (245, 245, 67),
   (59, 142, 234), (214, 112, 214), (41, 184, 219), (255, 255, 255)]

/-- `color_from_index` (lines 49-64).  The argument is `Int` because the
Python parameter is a signed int with an explicit `idx < 0` branch.
`BASE_COLORS[idx]` is total here because the branch guarantees
`0 ≤ idx < 16`, so `getD` with a dummy default is exact. -/
def color_from_index (idx : Int) : RGB :=
  if idx < 0 then (229, 229, 229)
  else if idx < 16 then BASE_COLORS.getD idx.toNat (0, 0, 0)
  else if idx < 232 then
    let v := idx.toNat - 16
    let r := (v / 36) % 6
    let g := (v / 6) % 6
    let b := v % 6
    let lvl := fun (x : Nat) => if x = 0 then 0 else 55 + x * 40
    (lvl r, lvl g, lvl b)
  else
    let v : Int := 8 + (idx - 232) * 10
    let v2 := (max 0 (min 255 v)).toNat
    (v2, v2, v2)

/-- A styled character cell (the `Cell` dataclass, lines 67-72). -/
structure Cell where
  ch : Char
  fg : RGB
  bg : RGB
  bold : Bool
deriving DecidableEq, Repr

/-- The `Cell()` default: a blank with the default foreground/background. -/
def defaultCell : Cell :=
  { ch := Char.ofNat 32, fg := (230, 230, 230), bg := (10, 12, 16), bold := false }

/-- The parser state strings `"normal" | "esc" | "csi" | "osc"`. -/
inductive PState where
  | normal
  | esc
  | csi
  | osc
deriving DecidableEq, Repr

/-- The `TerminalEmulator` mutable state (lines 75-93). -/
structure Emu where
  cols : Nat
  rows : Nat
  cells : List (List Cell)
  cx : Nat
  cy : Nat
  saved : Option (Nat × Nat)
  current_fg : RGB
  current_bg : RGB
  bold : Bool
  state : PState
  csi_buf : List Char
  osc_active : Bool
deriving DecidableEq, Repr

/-- `TerminalEmulator.__init__` / `reset` (lines 76-93): list comprehensions
over `range` become `List.replicate`. -/
def initEmu (cols rows : Nat) : Emu :=
  { cols := cols
    rows := rows
    cells := List.replicate rows (List.replicate cols defaultCell)
    cx := 0
    cy := 0
    saved := none
    current_fg := (230, 230, 230)
    current_bg := (10, 12, 16)
    bold := false
    state := PState.normal
    csi_buf := []
    osc_active := false }

/-- `reset()` re-initialises everything but keeps the dimensions. -/
def resetEmu (st : Emu) : Emu := initEmu st.cols st.rows

/-- Checked indexed assignment `self.cells[y][x] = c`.  Python raises
`IndexError` when an index is out of range (indices here are always
nonnegative, so Python's negative-index wrap-around never triggers). -/
def setCellE (st : Emu) (y x : Nat) (c : Cell) : Except PyErr Emu :=
  match st.cells[y]? with
  | none => .error .indexError
  | some row =>
      if x < row.length then
        .ok { st with cells := st.cells.set y (row.set x c) }
      else .error .indexError

/-- `_scroll` (lines 150-153): per iteration `cells.pop(0)` (IndexError on an
empty list) then append a fresh blank row carrying the current attributes. -/
def scrollE (st : Emu) (count : Nat) : Except PyErr Emu :=
  match count with
  | 0 => .ok st
  | n + 1 =>
      match st.cells with
      | [] => .error .indexError
      | _ :: restRows =>
          scrollE
            { st with cells := restRows ++
                [List.replicate st.cols
                  { ch := Char.ofNat 32, fg := st.current_fg,
                    bg := st.current_bg, bold := st.bold }] } n

/-- `_newline` (lines 143-148). `self.cy = self.rows - 1` before scrolling;
Nat subtraction matches Python for `rows ≥ 1` (for `rows = 0` the scroll
raises either way, so the discarded cursor value is unobservable). -/
def newlineE (st : Emu) : Except PyErr Emu :=
  let st1 := { st with cx := 0, cy := st.cy + 1 }
  if st1.cy ≥ st1.rows then scrollE { st1 with cy := st1.rows - 1 } 1
  else .ok st1

/-- `_put_char` (lines 155-162): wrap-check, scroll-check, write, advance. -/
def putCharE (st : Emu) (ch : Char) : Except PyErr Emu :=
  match (if st.cx ≥ st.cols then newlineE st else .ok st) with
  | .error e => .error e
  | .ok st1 =>
      match (if st1.cy ≥ st1.rows then
               (scrollE st1 1).map (fun s => { s with cy := s.rows - 1 })
             else .ok st1) with
      | .error e => .error e
      | .ok st2 =>
          match setCellE st2 st2.cy st2.cx
              { ch := ch, fg := st2.current_fg, bg := st2.current_bg,
                bold := st2.bold } with
          | .error e => .error e
          | .ok st3 => .ok { st3 with cx := st3.cx + 1 }

/-- Python `str.split(";")` on a character list: `"" ↦ [""]`, separators
produce empty fields. -/
def splitSemis : List Char → List (List Char)
  | [] => [[]]
  | c :: rest =>
      if c = Char.ofNat 0x3B then [] :: splitSemis rest
      else
        match splitSemis rest with
        | [] => [[c]]
        | f :: fs => (c :: f) :: fs

/-- Python `str.isdigit` restricted to the characters reachable from single
bytes (codepoints ≤ 0xFF): the ASCII digits plus the Latin-1 superscripts
`¹ ² ³` (codepoints 0xB9, 0xB2, 0xB3), which Python classifies as digits. -/
def isPyDigitChar (c : Char) : Bool :=
  c.isDigit || c = Char.ofNat 0xB2 || c = Char.ofNat 0xB3 || c = Char.ofNat 0xB9

/-- `p.isdigit()`: nonempty and every character a (Unicode) digit. -/
def pyIsdigit (p : List Char) : Bool :=
  !p.isEmpty && p.all isPyDigitChar

/-- Decimal value of an all-ASCII-digit string. -/
def decimalVal (p : List Char) : Nat :=
  p.foldl (fun acc c => acc * 10 + (c.toNat - 48)) 0

/-- Python `int(p)`: accepts only decimal (Nd) digits; on a string that
`isdigit` classified as digits but contains a superscript, it raises
`ValueError`.  (Called below only on `isdigit`-true strings, so sign,
whitespace and underscore handling are unreachable.) -/
def pyIntE (p : List Char) : Except PyErr Nat :=
  if p.all Char.isDigit then .ok (decimalVal p) else .error .valueError

/-- One parameter field: `int(p) if p.isdigit() else 0`. -/
def pyFieldToInt (p : List Char) : Except PyErr Nat :=
  if pyIsdigit p then pyIntE p else .ok 0

/-- Parameter parsing at the head of `_handle_csi` (lines 165-169): strip a
leading `?`, split on `;`, keep nonempty fields, convert each. -/
def csiIntsE (raw : List Char) : Except PyErr (List Nat) :=
  let raw2 := if raw.head? = some (Char.ofNat 0x3F) then raw.tail else raw
  let fields := (splitSemis raw2).filter (fun p => !p.isEmpty)
  fields.mapM pyFieldToInt

/-- `BASE_COLORS[i]` at the in-range indices used by `_apply_sgr`. -/
def baseColor (i : Nat) : RGB := BASE_COLORS.getD i (0, 0, 0)

/-- One simple (single-parameter) SGR code from the `_apply_sgr` if/elif
chain (lines 217-234): codes `38`/`48` with a malformed tail and
unrecognised codes leave the state unchanged. -/
def sgrStep (st : Emu) (p : Nat) : Emu :=
  if p = 0 then
    { st with current_fg := (230, 230, 230), current_bg := (10, 12, 16),
              bold := false }
  else if p = 1 then { st with bold := true }
  else if 30 ≤ p ∧ p ≤ 37 then { st with current_fg := baseColor (p - 30) }
  else if 90 ≤ p ∧ p ≤ 97 then { st with current_fg := baseColor (p - 90 + 8) }
  else if p = 39 then { st with current_fg := (230, 230, 230) }
  else if 40 ≤ p ∧ p ≤ 47 then { st with current_bg := baseColor (p - 40) }
  else if 100 ≤ p ∧ p ≤ 107 then { st with current_bg := baseColor (p - 100 + 8) }
  else if p = 49 then { st with current_bg := (10, 12, 16) }
  else st

/-- The `_apply_sgr` while-loop (lines 214-253).  The Python index `i`
advances by 1 per iteration except in the two extended-colour forms
`38/48 ; 2 ; r ; g ; b` (`i += 4`) and `38/48 ; 5 ; idx` (`i += 2`), which
consume their trailing parameters; the three top-level patterns mirror the
lookahead conditions `params[i+1] == 2 and i + 4 < len(params)` and
`params[i+1] == 5 and i + 2 < len(params)`.  A parameter that is not
`38`/`48` takes the simple `sgrStep` branch regardless of what follows it,
and a `38`/`48` whose tail fits neither form advances by one, exactly as
the Python `if/elif` chain does (no earlier branch of the chain matches
`38` or `48`, and `sgrStep` is the identity on them). -/
def sgrLoop : Emu → List Nat → Emu
  | st, [] => st
  | st, p :: 2 :: r :: g :: b :: rest2 =>
      if p = 38 ∨ p = 48 then
        sgrLoop (if p = 38 then { st with current_fg := (r, g, b) }
                 else { st with current_bg := (r, g, b) }) rest2
      else sgrLoop (sgrStep st p) (2 :: r :: g :: b :: rest2)
  | st, p :: 5 :: idx :: rest2 =>
      if p = 38 ∨ p = 48 then
        sgrLoop (if p = 38 then { st with current_fg := color_from_index idx }
                 else { st with current_bg := color_from_index idx }) rest2
      else sgrLoop (sgrStep st p) (5 :: idx :: rest2)
  | st, p :: rest => sgrLoop (sgrStep st p) rest

/-- `_apply_sgr` entry: an empty parameter list defaults to `[0]`. -/
def applySgr (st : Emu) (params : List Nat) : Emu :=
  sgrLoop st (if params.isEmpty then [0] else params)

/-- The erase-in-line write loop of the `K` branch (lines 197-199): for each
`x` in the precomputed range, guarded by `0 ≤ self.cy < self.rows`, write a
blank cell with the current attributes at `cells[cy][x]`. -/
def eraseLoopE (st : Emu) : List Nat → Except PyErr Emu
  | [] => .ok st
  | x :: restXs =>
      if st.cy < st.rows then
        match setCellE st st.cy x
            { ch := Char.ofNat 32, fg := st.current_fg, bg := st.current_bg,
              bold := st.bold } with
        | .error e => .error e
        | .ok st2 => eraseLoopE st2 restXs
      else eraseLoopE st restXs

/-- `_handle_csi` (lines 164-209).  Parameter conversion happens before
dispatch for every final byte (so a `ValueError` from `int` propagates even
for ignored finals).  Cursor clamps `max(0, min(k, v))` become truncated
`Nat` arithmetic, which agrees with the Python values whenever they are
nonnegative (they are, for `rows ≥ 1` and `cols ≥ 1`; see the comments on
the individual branches in the source). -/
def handleCsiE (st : Emu) (final : Char) (raw : List Char) : Except PyErr Emu :=
  match csiIntsE raw with
  | .error e => .error e
  | .ok ints =>
      if final = Char.ofNat 72 ∨ final = Char.ofNat 102 then
        -- "H" / "f"
        let row := ints.getD 0 1
        let col := ints.getD 1 1
        .ok { st with cy := min (st.rows - 1) (row - 1),
                      cx := min (st.cols - 1) (col - 1) }
      else if final = Char.ofNat 65 then
        -- "A"
        .ok { st with cy := st.cy - ints.getD 0 1 }
      else if final = Char.ofNat 66 then
        -- "B"
        .ok { st with cy := min (st.rows - 1) (st.cy + ints.getD 0 1) }
      else if final = Char.ofNat 67 then
        -- "C"
        .ok { st with cx := min (st.cols - 1) (st.cx + ints.getD 0 1) }
      else if final = Char.ofNat 68 then
        -- "D"
        .ok { st with cx := st.cx - ints.getD 0 1 }
      else if final = Char.ofNat 74 then
        -- "J"
        let mode := ints.getD 0 0
        if mode = 2 then .ok (resetEmu st) else .ok st
      else if final = Char.ofNat 75 then
        -- "K"
        let mode := ints.getD 0 0
        if mode = 0 ∨ mode = 1 ∨ mode = 2 then
          let start := if mode = 0 then st.cx else 0
          let stop := if mode = 0 then st.cols
                      else if mode = 1 then st.cx + 1 else st.cols
          eraseLoopE st (List.range' start (min stop st.cols - start))
        else .ok st
      else if final = Char.ofNat 109 then
        -- "m"
        .ok (applySgr st ints)
      else if final = Char.ofNat 115 then
        -- "s"
        .ok { st with saved := some (st.cx, st.cy) }
      else if final = Char.ofNat 117 then
        -- "u"
        match st.saved with
        | some s => .ok { st with cx := s.1, cy := s.2 }
        | none => .ok st
      else .ok st

/-- One byte in the `"normal"` state (lines 99-114).  `min(cols - 1, ...)`
for TAB is Nat-truncated, matching Python for `cols ≥ 1`. -/
def stepNormalE (st : Emu) (b : Nat) : Except PyErr Emu :=
  if b = 0x1B then .ok { st with state := PState.esc }
  else if b = 0x0D then .ok { st with cx := 0 }
  else if b = 0x0A then newlineE st
  else if b = 0x08 then .ok { st with cx := st.cx - 1 }
  else if b = 0x09 then
    .ok { st with cx := min (st.cols - 1) ((st.cx / 8 + 1) * 8) }
  else if b = 0x07 then .ok st
  else if (0x20 ≤ b ∧ b ≤ 0x7E) ∨ 0xA0 ≤ b then putCharE st (Char.ofNat b)
  else .ok st

/-- One byte in the `"esc"` state (lines 115-124). -/
def stepEsc (st : Emu) (b : Nat) : Emu :=
  if b = 0x5B then { st with state := PState.csi, csi_buf := [] }
  else if b = 0x5D then { st with osc_active := true, state := PState.osc }
  else { st with state := PState.normal }

/-- One loop iteration of `feed` (lines 95-141) in every situation where
exactly one byte is consumed: the `"normal"`, `"esc"` and `"csi"` state
dispatch, plus the `"osc"` state for any byte other than a successful
`ESC \` lookahead.  In `"osc"`, BEL exits; an `ESC` whose follower is not a
backslash (or is absent) is simply absorbed (`i += 1` only), leaving the
state in OSC, which is the `else` branch here; the successful two-byte
lookahead itself is handled by `feedE`. -/
def stepByteE (st : Emu) (b : Nat) : Except PyErr Emu :=
  match st.state with
  | PState.normal => stepNormalE st b
  | PState.esc => .ok (stepEsc st b)
  | PState.osc =>
      if b = 0x07 then
        .ok { st with osc_active := false, state := PState.normal }
      else .ok st
  | PState.csi =>
      if 0x40 ≤ b ∧ b ≤ 0x7E then
        match handleCsiE st (Char.ofNat b) st.csi_buf with
        | .error e => .error e
        | .ok st2 => .ok { st2 with state := PState.normal }
      else .ok { st with csi_buf := st.csi_buf ++ [Char.ofNat b] }

/-- `feed` (lines 95-141), byte by byte.  The only place the Python loop
consumes two bytes at once is the OSC `ESC \` terminator check, which peeks
at `data[i + 1]`; that is the guarded first branch of the two-byte pattern.
Every other iteration consumes exactly one byte via `stepByteE` (where an
OSC `ESC` at the very end of the data is absorbed with no lookahead,
leaving the parser in OSC state, just as in Python). -/
def feedE : Emu → List Nat → Except PyErr Emu
  | st, [] => .ok st
  | st, [b] => stepByteE st b
  | st, b :: b2 :: rest2 =>
      if st.state = PState.osc ∧ b = 0x1B ∧ b2 = 0x5C then
        feedE { st with osc_active := false, state := PState.normal } rest2
      else
        match stepByteE st b with
        | .error e => .error e
        | .ok st2 => feedE st2 (b2 :: rest2)

/-- `rgb_hex` (lines 479-480): `"#{:02x}{:02x}{:02x}"`.  Python's `{:02x}`
pads with zeros to width two and never truncates. -/
def hex02 (n : Nat) : String :=
  let ds := Nat.toDigits 16 n
  String.mk (List.replicate (2 - ds.length) (Char.ofNat 48) ++ ds)

/-- Hex colour string `#rrggbb`. -/
def rgbHex (c : RGB) : String :=
  "#" ++ hex02 c.1 ++ hex02 c.2.1 ++ hex02 c.2.2

/-- `html.escape` with default `quote=True`: `& < > " ᾿` are replaced by
their entities.  Python applies sequential `str.replace` starting with `&`,
which on any input equals this character-wise map. -/
def escChar (c : Char) : String :=
  if c = Char.ofNat 38 then ("&amp;")
  else if c = Char.ofNat 60 then ("&lt;")
  else if c = Char.ofNat 62 then ("&gt;")
  else if c = Char.ofNat 34 then ("&quot;")
  else if c = Char.ofNat 39 then ("&#x27;")
  else String.singleton c

/-- Escape an entire buffer. -/
def htmlEscape (s : String) : String :=
  String.join (s.data.map escChar)

/-- The background colour of the top-left cell, `(0, 0, 0)` for an empty
grid (line 486).  For a nonempty grid whose first row is empty (only
possible when `cols = 0`) Python would raise; the model returns the default
cell's background, a difference invisible to the claims, which concern
grids with at least one column. -/
def bg0Of (cells : List (List Cell)) : RGB :=
  match cells with
  | [] => (0, 0, 0)
  | row0 :: _ => (row0.headD defaultCell).bg

/-- One background-run rectangle line (lines 502-507). -/
def mkBgRect (cw chh pad x y n : Nat) (bg : RGB) : String :=
  "  <rect x=\"" ++ toString (pad + x * cw) ++ "\" y=\"" ++
    toString (pad + y * chh) ++ "\" width=\"" ++ toString (n * cw) ++
    "\" height=\"" ++ toString chh ++ "\" fill=\"" ++ rgbHex bg ++ "\"/>"

/-- Length of the maximal run of cells sharing background `bg` at the head. -/
def runLenBg (bg : RGB) : List Cell → Nat
  | [] => 0
  | c :: rest => if c.bg = bg then runLenBg bg rest + 1 else 0

/-- The cells after that maximal run. -/
def dropRunBg (bg : RGB) : List Cell → List Cell
  | [] => []
  | c :: rest => if c.bg = bg then dropRunBg bg rest else c :: rest

/-- The per-row background-span loop of `render_svg` (lines 494-507):
coalesce maximal same-background runs left to right, emitting one rectangle
per run whose colour differs from the canvas base colour `bg0`.  `x` is the
running start column; the scan covers columns `0..cols-1`, so callers pass
the row truncated to `cols` entries (Python indexes `row[x]` for
`x < cols`). -/
def bgRowRects (cw chh pad : Nat) (bg0 : RGB) (y : Nat) :
    Nat → List Cell → List String
  | _, [] => []
  | x, c :: rest =>
      let n := runLenBg c.bg rest + 1
      (if c.bg ≠ bg0 then [mkBgRect cw chh pad x y n c.bg] else []) ++
        bgRowRects cw chh pad bg0 y (x + n) (dropRunBg c.bg rest)
termination_by _ cs => cs.length
decreasing_by
simp_wf
have hle : ∀ (bg : RGB) (xs : List Cell),
    (dropRunBg bg xs).length ≤ xs.length := by
  intro bg xs
  induction xs with
  | nil => simp [dropRunBg]
  | cons c2 r2 ih =>
      simp only [dropRunBg]
      by_cases h2 : c2.bg = bg <;> simp [h2] <;> omega
have := hle c.bg rest
omega

/-- The maximal same-background run decomposition of a row, with start
positions: each entry is `(start, length, background)`. -/
def rowRuns : Nat → List Cell → List (Nat × Nat × RGB)
  | _, [] => []
  | x, c :: rest =>
      (x, runLenBg c.bg rest + 1, c.bg) ::
        rowRuns (x + (runLenBg c.bg rest + 1)) (dropRunBg c.bg rest)
termination_by _ cs => cs.length
decreasing_by
simp_wf
have hle : ∀ (bg : RGB) (xs : List Cell),
    (dropRunBg bg xs).length ≤ xs.length := by
  intro bg xs
  induction xs with
  | nil => simp [dropRunBg]
  | cons c2 r2 ih =>
      simp only [dropRunBg]
      by_cases h2 : c2.bg = bg <;> simp [h2] <;> omega
have := hle c.bg rest
omega

/-- All background-span rectangle lines (the loop over `enumerate(cells)`
at line 494). -/
def bgSpanLines (cw chh pad cols : Nat) (bg0 : RGB)
    (cells : List (List Cell)) : List String :=
  cells.enum.flatMap fun p => bgRowRects cw chh pad bg0 p.1 0 (p.2.take cols)

/-- The font-family string (line 509); quotes built from code points to keep
the embedding printable. -/
def fontSpec : String :=
  "JetBrains Mono, " ++ String.singleton (Char.ofNat 39) ++ "Fira Code" ++
    String.singleton (Char.ofNat 39) ++
    ", SFMono-Regular, Consolas, Menlo, monospace"

/-- The `<text>` opening line for row `y` (lines 512-515; two adjacent
f-strings appended into one list entry). -/
def textOpenLine (chh pad y : Nat) : String :=
  "  <text x=\"" ++ toString pad ++ "\" y=\"" ++ toString (pad + y * chh) ++
    "\" xml:space=\"preserve\" font-family=\"" ++ fontSpec ++
    "\" font-size=\"13\" dominant-baseline=\"hanging\">"

/-- `flush()` (lines 520-531): emit one `<tspan>` for the buffered run, with
a `fill` attribute when a foreground is set (it always is for a nonempty
buffer) and a weight attribute when bold. -/
def tspanFlush (fg : Option RGB) (bold : Bool) (buf : String) : List String :=
  if buf = ("") then []
  else
    let attrs :=
      (match fg with
       | some c => ["fill=\"" ++ rgbHex c ++ "\""]
       | none => []) ++
      (if bold then ["font-weight=\"700\""] else [])
    let attrStr :=
      if attrs.isEmpty then ("") else (" ") ++ String.intercalate (" ") attrs
    ["    <tspan" ++ attrStr ++ ">" ++ htmlEscape buf ++ "</tspan>"]

/-- The per-cell text loop (lines 533-542): coalesce consecutive cells with
identical (foreground, bold) into one buffered run, flushing on change; a
NUL character renders as a space. -/
def textRunsAux (fg : Option RGB) (bold : Bool) (buf : String) :
    List Cell → List String
  | [] => tspanFlush fg bold buf
  | c :: rest =>
      let ch := if c.ch = Char.ofNat 0 then Char.ofNat 32 else c.ch
      if some c.fg ≠ fg ∨ c.bold ≠ bold then
        tspanFlush fg bold buf ++
          textRunsAux (some c.fg) c.bold (String.singleton ch) rest
      else textRunsAux fg bold (buf.push ch) rest

/-- One row's text block: opening line, tspans, closing line. -/
def textRowLines (chh pad y : Nat) (row : List Cell) : List String :=
  [textOpenLine chh pad y] ++ textRunsAux none false ("") row ++ ["  </text>"]

/-- All text lines (the loop over `enumerate(cells)` at line 510). -/
def textLines (chh pad : Nat) (cells : List (List Cell)) : List String :=
  cells.enum.flatMap fun p => textRowLines chh pad p.1 p.2

/-- The three header lines (lines 487-491): XML declaration, `<svg>` opening
tag, and the base canvas rectangle filled with `bg0`. -/
def headerLines (rws cols cw chh pad : Nat)
    (cells : List (List Cell)) : List String :=
  let width := pad * 2 + cols * cw
  let height := pad * 2 + rws * chh
  ["<?xml version=\"1.0\" encoding=\"UTF-8\"?>",
   "<svg xmlns=\"http://www.w3.org/2000/svg\" width=\"" ++ toString width ++
     "\" height=\"" ++ toString height ++ "\" viewBox=\"0 0 " ++
     toString width ++ " " ++ toString height ++ "\">",
   "  <rect x=\"0\" y=\"0\" width=\"" ++ toString width ++ "\" height=\"" ++
     toString height ++ "\" fill=\"" ++ rgbHex (bg0Of cells) ++
     "\" rx=\"8\" ry=\"8\"/>"]

/-- The full `lines` list accumulated by `render_svg` (lines 487-544),
as a function of the only emulator fields the renderer reads. -/
def renderLines (rws cols cw chh pad : Nat)
    (cells : List (List Cell)) : List String :=
  headerLines rws cols cw chh pad cells ++
    bgSpanLines cw chh pad cols (bg0Of cells) cells ++
    textLines chh pad cells ++ ["</svg>"]

/-- `render_svg` (lines 483-545): `"\n".join(lines) + "\n"`. -/
def render_svg (st : Emu) (cw chh pad : Nat) : String :=
  String.intercalate ("\n") (renderLines st.rows st.cols cw chh pad st.cells) ++ "\n"

/-- Join fields with `;` separators (the inverse of `splitSemis` on
semicolon-free fields), used to state the amended C2. -/
def joinSemis : List (List Char) → List Char
  | [] => []
  | [f] => f
  | f :: rest => f ++ Char.ofNat 0x3B :: joinSemis rest

/-- The state used by the C5 witness: a 2×2 grid with non-default active
attributes and the cursor on the last row. -/
def demoEmu : Emu :=
  { initEmu 2 2 with cy := 1, current_fg := (1, 2, 3), current_bg := (4, 5, 6),
                     bold := true }

/-- The cell written by `_put_char` for byte `b` under the default pending
attributes. -/
def printCell (b : Nat) : Cell :=
  { ch := Char.ofNat b, fg := (230, 230, 230), bg := (10, 12, 16),
    bold := false }

/-- The saved cursor, when present, is itself within the clamp bounds. -/
def savedOK (st : Emu) : Bool :=
  match st.saved with
  | none => true
  | some s => decide (s.1 ≤ st.cols) && decide (s.2 < st.rows)

/-- The emulator invariant: positive dimensions, a `rows × cols` cell
array, and the (amended) cursor clamp `cx ≤ cols ∧ cy ≤ rows - 1` — `cx`
may equal `cols` transiently because `_put_char` advances past the last
column and wraps only on the next write. -/
def WF (st : Emu) : Prop :=
  1 ≤ st.rows ∧ 1 ≤ st.cols ∧ st.cells.length = st.rows ∧
  (∀ row ∈ st.cells, row.length = st.cols) ∧
  st.cx ≤ st.cols ∧ st.cy < st.rows ∧ savedOK st = true

/-- The cube channel level as the spec states it: `0` for level `0`,
`55 + 40·x` otherwise. -/
def cubeLevel (x : Nat) : Nat := if x = 0 then 0 else 55 + 40 * x

deriving instance DecidableEq for Except

set_option maxRecDepth 10000

/-- Claim C7: the colour-index mapping has three bands — `0..15` the fixed
palette, `16..231` the 6×6×6 cube with channel levels `cubeLevel`, and
`232..255` the grayscale ramp `8 + 10·(idx - 232)` in every channel — with
the stated corner values. -/
theorem c7_color_index_bands :
    (∀ idx : Nat, idx < 256 →
      ((idx < 16 → color_from_index idx = BASE_COLORS.getD idx (0, 0, 0)) ∧
       (16 ≤ idx → idx < 232 →
         color_from_index idx =
           (cubeLevel (((idx - 16) / 36) % 6),
            cubeLevel (((idx - 16) / 6) % 6),
            cubeLevel ((idx - 16) % 6))) ∧
       (232 ≤ idx →
         color_from_index idx =
           (8 + 10 * (idx - 232), 8 + 10 * (idx - 232),
            8 + 10 * (idx - 232))))) ∧
    color_from_index 16 = (0, 0, 0) ∧
    color_from_index 231 = (255, 255, 255) ∧
    color_from_index 232 = (8, 8, 8) ∧
    color_from_index 255 = (238, 238, 238) := by
  have hb : ∀ idx : Fin 256,
      ((idx.val < 16 →
         color_from_index idx.val = BASE_COLORS.getD idx.val (0, 0, 0)) ∧
       (16 ≤ idx.val → idx.val < 232 →
         color_from_index idx.val =
           (cubeLevel (((idx.val - 16) / 36) % 6),
            cubeLevel (((idx.val - 16) / 6) % 6),
            cubeLevel ((idx.val - 16) % 6))) ∧
       (232 ≤ idx.val →
         color_from_index idx.val =
           (8 + 10 * (idx.val - 232), 8 + 10 * (idx.val - 232),
            8 + 10 * (idx.val - 232)))) := by decide
  exact ⟨fun idx hlt => hb ⟨idx, hlt⟩, by decide, by decide, by decide, by decide⟩

/-- Witness for C7: index 100 falls in the cube band and evaluates to the
stated formula. -/
theorem c7_color_index_bands_witness :
    color_from_index ((100 : Nat) : Int) =
      (cubeLevel (((100 - 16) / 36) % 6), cubeLevel (((100 - 16) / 6) % 6),
       cubeLevel ((100 - 16) % 6)) :=
  (c7_color_index_bands.1 100 (by decide)).2.1 (by decide) (by decide)

/-- Claim C3 (status: code bug).  The input `ESC [ 0xB2 m` — a CSI sequence
whose parameter byte is the Latin-1 superscript-two, which Python's
`str.isdigit` accepts but `int` rejects — makes `feed` raise `ValueError`,
contradicting the never-fails contract. -/
theorem c3_feed_raises :
    feedE (initEmu 4 3) [0x1B, 0x5B, 0xB2, 0x6D] = .error .valueError := by
  decide

/-- Claim C2 (status: corrected).  The counterexample: the parameter string
`";5"` (as in `ESC [ ; 5 H`) does *not* parse to `[0, 5]` — the empty field
is dropped, giving `[5]` — and consequently `ESC [ ; 5 H` on a fresh 6×6
grid moves the cursor to row index 4, column index 0 (row parameter 5,
column defaulted to 1), not to row 0, column 4 as the claim's `[0, 5]`
reading would. -/
theorem c2_csi_params_counterexample :
    csiIntsE [Char.ofNat 0x3B, Char.ofNat 0x35] = .ok [5] ∧
    csiIntsE [Char.ofNat 0x3B, Char.ofNat 0x35] ≠ .ok [0, 5] ∧
    (feedE (initEmu 6 6) [0x1B, 0x5B, 0x3B, 0x35, 0x48]).map
        (fun s => (s.cx, s.cy)) = .ok (0, 4) := by
  exact ⟨by decide, by decide, by decide⟩

theorem splitSemis_no_semi (f : List Char) (h : Char.ofNat 0x3B ∉ f) :
    splitSemis f = [f] := by
  induction f with
  | nil => rfl
  | cons c rest ih =>
      simp only [List.mem_cons, not_or] at h
      have hc : ¬ c = Char.ofNat 0x3B := fun he => h.1 he.symm
      simp [splitSemis, hc, ih h.2]

theorem splitSemis_append (f l : List Char) (h : Char.ofNat 0x3B ∉ f) :
    splitSemis (f ++ Char.ofNat 0x3B :: l) = f :: splitSemis l := by
  induction f with
  | nil => simp [splitSemis]
  | cons c rest ih =>
      simp only [List.mem_cons, not_or] at h
      have hc : ¬ c = Char.ofNat 0x3B := fun he => h.1 he.symm
      simp [splitSemis, hc, ih h.2]

theorem splitSemis_join (fields : List (List Char)) (hne : fields ≠ [])
    (h : ∀ f ∈ fields, Char.ofNat 0x3B ∉ f) :
    splitSemis (joinSemis fields) = fields := by
  induction fields with
  | nil => exact absurd rfl hne
  | cons f rest ih =>
      cases rest with
      | nil => exact splitSemis_no_semi f (h f (by simp))
      | cons g rest2 =>
          have hj : joinSemis (f :: g :: rest2) =
              f ++ Char.ofNat 0x3B :: joinSemis (g :: rest2) := rfl
          rw [hj, splitSemis_append f _ (h f (by simp)),
            ih (by simp) (fun x hx => h x (List.mem_cons_of_mem f hx))]

theorem joinSemis_head_ne (fields : List (List Char))
    (h : ∀ f ∈ fields, Char.ofNat 0x3F ∉ f) :
    (joinSemis fields).head? ≠ some (Char.ofNat 0x3F) := by
  cases fields with
  | nil => simp [joinSemis]
  | cons f rest =>
      have hf : Char.ofNat 0x3F ∉ f := h f (by simp)
      cases rest with
      | nil =>
          cases f with
          | nil => simp [joinSemis]
          | cons c cs =>
              simp only [joinSemis, List.head?]
              intro he
              have hc := Option.some_inj.mp he
              rw [hc] at hf
              exact hf (List.mem_cons_self _ _)
      | cons g rest2 =>
          cases f with
          | nil =>
              simp only [joinSemis, List.nil_append, List.head?]
              intro he
              have := Option.some_inj.mp he
              exact absurd this (by decide)
          | cons c cs =>
              simp only [joinSemis, List.cons_append, List.head?]
              intro he
              have hc := Option.some_inj.mp he
              rw [hc] at hf
              exact hf (List.mem_cons_self _ _)

/-- Claim C2 as amended: when a CSI parameter string is split on `;`, the
empty fields are *dropped* (they contribute nothing, rather than being read
as 0); nonempty non-numeric fields are still converted to 0 by
`pyFieldToInt`.  Concretely, parsing the join of any semicolon-free field
list equals parsing only its nonempty fields, and `";5"` parses to `[5]`
(so in `ESC [ ; 5 H` the row parameter is 5 and the column defaults to
1). -/
theorem c2_csi_params_amended :
    (∀ fields : List (List Char),
      (∀ f ∈ fields, Char.ofNat 0x3B ∉ f ∧ Char.ofNat 0x3F ∉ f) →
      csiIntsE (joinSemis fields) =
        (fields.filter (fun p => !p.isEmpty)).mapM pyFieldToInt) ∧
    csiIntsE [Char.ofNat 0x3B, Char.ofNat 0x35] = .ok [5] := by
  constructor
  · intro fields h
    have hhead : (joinSemis fields).head? ≠ some (Char.ofNat 0x3F) :=
      joinSemis_head_ne fields (fun f hf => (h f hf).2)
    cases hf : fields with
    | nil => simp [csiIntsE, joinSemis, splitSemis]
    | cons f rest =>
        have hsplit : splitSemis (joinSemis fields) = fields :=
          splitSemis_join fields (by simp [hf]) (fun f hf => (h f hf).1)
        rw [← hf]
        simp only [csiIntsE, if_neg hhead, hsplit]
  · decide

/-- Witness for the amended C2: the two-field list `["", "5"]` joins to
`";5"` and parses as only its nonempty field. -/
theorem c2_csi_params_amended_witness :
    csiIntsE (joinSemis [[], [Char.ofNat 0x35]]) =
      (([[], [Char.ofNat 0x35]] : List (List Char)).filter
        (fun p => !p.isEmpty)).mapM pyFieldToInt :=
  c2_csi_params_amended.1 [[], [Char.ofNat 0x35]] (by decide)

/-- Claim C6: the SGR extended-colour forms `38;2;r;g;b` / `48;2;r;g;b` set
the pending foreground/background to the literal triple, the forms
`38;5;idx` / `48;5;idx` set it to the `color_from_index` mapping of `idx`,
and in each case the loop resumes directly after the consumed parameters,
so the consumed values are never interpreted as SGR codes themselves. -/
theorem c6_sgr_extended_skip :
    ∀ (st : Emu) (r g b idx : Nat) (rest : List Nat),
      sgrLoop st (38 :: 2 :: r :: g :: b :: rest) =
        sgrLoop { st with current_fg := (r, g, b) } rest ∧
      sgrLoop st (48 :: 2 :: r :: g :: b :: rest) =
        sgrLoop { st with current_bg := (r, g, b) } rest ∧
      sgrLoop st (38 :: 5 :: idx :: rest) =
        sgrLoop { st with current_fg := color_from_index idx } rest ∧
      sgrLoop st (48 :: 5 :: idx :: rest) =
        sgrLoop { st with current_bg := color_from_index idx } rest := by
  intro st r g b idx rest
  refine ⟨rfl, rfl, ?_, ?_⟩ <;> rw [sgrLoop] <;> rfl

/-- Claim C9: the renderer is a pure, deterministic function of the grid —
it reads only the dimensions and the cell array, so any two grids agreeing
on those render to byte-identical documents. -/
theorem c9_render_deterministic :
    ∀ (g1 g2 : Emu) (cw chh pad : Nat),
      g1.rows = g2.rows → g1.cols = g2.cols → g1.cells = g2.cells →
      render_svg g1 cw chh pad = render_svg g2 cw chh pad := by
  intro g1 g2 cw chh pad h1 h2 h3
  unfold render_svg
  rw [h1, h2, h3]

/-- Witness for C9 at a concrete grid. -/
theorem c9_render_deterministic_witness :
    render_svg (initEmu 1 1) 9 16 10 = render_svg (initEmu 1 1) 9 16 10 :=
  c9_render_deterministic (initEmu 1 1) (initEmu 1 1) 9 16 10 rfl rfl rfl

/-- Claim C5: a scroll drops row 0, shifts every other row up by one, and
appends a bottom row of blank cells styled with the *currently active*
foreground/background/emphasis; a newline at or past the last row triggers
exactly this scroll (with the cursor ending at column 0 of the last row). -/
theorem c5_scroll_blank_row :
    ∀ st : Emu, st.cells ≠ [] →
      ((scrollE st 1).map Emu.cells = .ok (st.cells.tail ++
          [List.replicate st.cols
            { ch := Char.ofNat 32, fg := st.current_fg, bg := st.current_bg,
              bold := st.bold }]) ∧
       (∀ i : Nat, (st.cells.tail)[i]? = st.cells[i + 1]?) ∧
       (st.cy + 1 ≥ st.rows →
         (newlineE st).map (fun s => (s.cx, s.cy, s.cells)) =
           .ok (0, st.rows - 1, st.cells.tail ++
             [List.replicate st.cols
               { ch := Char.ofNat 32, fg := st.current_fg,
                 bg := st.current_bg, bold := st.bold }]))) := by
  intro st hne
  cases hc : st.cells with
  | nil => exact absurd hc hne
  | cons r0 rs =>
      refine ⟨?_, ?_, ?_⟩
      · simp [scrollE, hc, Except.map]
      · intro i
        simp
      · intro hge
        simp [newlineE, hge, scrollE, hc, Except.map]

/-- Witness for C5 at `demoEmu`. -/
theorem c5_scroll_blank_row_witness :
    (scrollE demoEmu 1).map Emu.cells = .ok (demoEmu.cells.tail ++
        [List.replicate demoEmu.cols
          { ch := Char.ofNat 32, fg := demoEmu.current_fg,
            bg := demoEmu.current_bg, bold := demoEmu.bold }]) ∧
    (newlineE demoEmu).map (fun s => (s.cx, s.cy, s.cells)) =
      .ok (0, demoEmu.rows - 1, demoEmu.cells.tail ++
        [List.replicate demoEmu.cols
          { ch := Char.ofNat 32, fg := demoEmu.current_fg,
            bg := demoEmu.current_bg, bold := demoEmu.bold }]) :=
  ⟨(c5_scroll_blank_row demoEmu (by decide)).1,
   (c5_scroll_blank_row demoEmu (by decide)).2.2 (by decide)⟩

/-- Inversion for a successful checked cell write. -/
theorem setCellE_ok (st : Emu) (y x : Nat) (c : Cell) (st2 : Emu)
    (h : setCellE st y x c = .ok st2) :
    ∃ row, st.cells[y]? = some row ∧ x < row.length ∧
      st2 = { st with cells := st.cells.set y (row.set x c) } := by
  unfold setCellE at h
  cases hrow : st.cells[y]? with
  | none => rw [hrow] at h; simp at h
  | some row =>
      rw [hrow] at h
      dsimp only at h
      by_cases hx : x < row.length
      · rw [if_pos hx] at h
        injection h with h2
        exact ⟨row, rfl, hx, h2.symm⟩
      · rw [if_neg hx] at h; simp at h

/-- The erase-in-line write loop changes only cells in the cursor row: every
scalar field is preserved and every other row of the cell array is
untouched. -/
theorem eraseLoopE_frame :
    ∀ (xs : List Nat) (st st2 : Emu), eraseLoopE st xs = .ok st2 →
      st2.cx = st.cx ∧ st2.cy = st.cy ∧ st2.saved = st.saved ∧
      st2.current_fg = st.current_fg ∧ st2.current_bg = st.current_bg ∧
      st2.bold = st.bold ∧ st2.cols = st.cols ∧ st2.rows = st.rows ∧
      (∀ y : Nat, y ≠ st.cy → st2.cells[y]? = st.cells[y]?) := by
  intro xs
  induction xs with
  | nil =>
      intro st st2 h
      simp only [eraseLoopE] at h
      injection h with h2
      subst h2
      exact ⟨rfl, rfl, rfl, rfl, rfl, rfl, rfl, rfl, fun _ _ => rfl⟩
  | cons x restXs ih =>
      intro st st2 h
      simp only [eraseLoopE] at h
      by_cases hcy : st.cy < st.rows
      · rw [if_pos hcy] at h
        cases hset : setCellE st st.cy x
            { ch := Char.ofNat 32, fg := st.current_fg, bg := st.current_bg,
              bold := st.bold } with
        | error e => rw [hset] at h; simp at h
        | ok stm =>
            rw [hset] at h
            obtain ⟨row, hrow, hx, hstm⟩ := setCellE_ok _ _ _ _ _ hset
            have f2 := ih stm st2 h
            subst hstm
            refine ⟨f2.1, f2.2.1, f2.2.2.1, f2.2.2.2.1, f2.2.2.2.2.1,
              f2.2.2.2.2.2.1, f2.2.2.2.2.2.2.1, f2.2.2.2.2.2.2.2.1, ?_⟩
            intro y hy
            rw [f2.2.2.2.2.2.2.2.2 y hy]
            exact List.getElem?_set_ne (fun he => hy he.symm)
      · rw [if_neg hcy] at h
        exact ih st st2 h

/-- Claim C10: dispatching an erase-in-line sequence (final byte `K`, any
mode) leaves the cursor, the saved cursor, and the pending attributes
unchanged, and replaces cells only in the cursor's row — every other row is
untouched. -/
theorem c10_erase_line_frame :
    ∀ (st : Emu) (raw : List Char) (st2 : Emu),
      handleCsiE st (Char.ofNat 0x4B) raw = .ok st2 →
      st2.cx = st.cx ∧ st2.cy = st.cy ∧ st2.saved = st.saved ∧
      st2.current_fg = st.current_fg ∧ st2.current_bg = st.current_bg ∧
      st2.bold = st.bold ∧
      (∀ y : Nat, y ≠ st.cy → st2.cells[y]? = st.cells[y]?) := by
  intro st raw st2 h
  unfold handleCsiE at h
  cases hi : csiIntsE raw with
  | error e => rw [hi] at h; simp at h
  | ok ints =>
      rw [hi] at h
      dsimp only at h
      rw [if_neg (by decide), if_neg (by decide), if_neg (by decide),
          if_neg (by decide), if_neg (by decide), if_neg (by decide),
          if_pos rfl] at h
      by_cases hm : ints.getD 0 0 = 0 ∨ ints.getD 0 0 = 1 ∨ ints.getD 0 0 = 2
      · rw [if_pos hm] at h
        have f := eraseLoopE_frame _ st st2 h
        exact ⟨f.1, f.2.1, f.2.2.1, f.2.2.2.1, f.2.2.2.2.1, f.2.2.2.2.2.1,
          f.2.2.2.2.2.2.2.2⟩
      · rw [if_neg hm] at h
        injection h with h2
        subst h2
        exact ⟨rfl, rfl, rfl, rfl, rfl, rfl, fun _ _ => rfl⟩

/-- Witness for C10: erasing on a fresh 2×2 grid succeeds (the erased cells
are already blanks with the active attributes, so the state is unchanged)
and row 1 is untouched. -/
theorem c10_erase_line_frame_witness :
    handleCsiE (initEmu 2 2) (Char.ofNat 0x4B) [] = .ok (initEmu 2 2) ∧
    (initEmu 2 2).cells[1]? = (initEmu 2 2).cells[1]? :=
  ⟨by decide,
   (c10_erase_line_frame (initEmu 2 2) [] (initEmu 2 2) (by decide)).2.2.2.2.2.2
     1 (by decide)⟩

theorem dropRunBg_length_le (bg : RGB) (xs : List Cell) :
    (dropRunBg bg xs).length ≤ xs.length := by
  induction xs with
  | nil => simp [dropRunBg]
  | cons c rest ih =>
      simp only [dropRunBg]
      by_cases h : c.bg = bg <;> simp [h] <;> omega

theorem dropRunBg_subset (bg : RGB) :
    ∀ (xs : List Cell), ∀ a ∈ dropRunBg bg xs, a ∈ xs := by
  intro xs
  induction xs with
  | nil => intro a ha; simp [dropRunBg] at ha
  | cons c rest ih =>
      intro a ha
      simp only [dropRunBg] at ha
      by_cases hc : c.bg = bg
      · rw [if_pos hc] at ha
        exact List.mem_cons_of_mem c (ih a ha)
      · rw [if_neg hc] at ha
        exact ha

/-- The imperative background-span loop equals mapping the rectangle maker
over the runs whose background differs from the base colour. -/
theorem bgRowRects_eq_filter_runs (cw chh pad : Nat) (bg0 : RGB) (y : Nat) :
    ∀ (cs : List Cell) (x : Nat),
      bgRowRects cw chh pad bg0 y x cs =
        ((rowRuns x cs).filter (fun r => r.2.2 ≠ bg0)).map
          (fun r => mkBgRect cw chh pad r.1 y r.2.1 r.2.2) := by
  have H : ∀ (n : Nat) (cs : List Cell), cs.length ≤ n → ∀ x,
      bgRowRects cw chh pad bg0 y x cs =
        ((rowRuns x cs).filter (fun r => r.2.2 ≠ bg0)).map
          (fun r => mkBgRect cw chh pad r.1 y r.2.1 r.2.2) := by
    intro n
    induction n with
    | zero =>
        intro cs hlen x
        have : cs = [] := List.eq_nil_of_length_eq_zero (Nat.le_zero.mp hlen)
        subst this
        simp [bgRowRects, rowRuns]
    | succ n ih =>
        intro cs hlen x
        cases cs with
        | nil => simp [bgRowRects, rowRuns]
        | cons c rest =>
            have hdrop : (dropRunBg c.bg rest).length ≤ n := by
              have := dropRunBg_length_le c.bg rest
              simp only [List.length_cons] at hlen
              omega
            rw [bgRowRects, rowRuns, ih _ hdrop]
            by_cases hbg : c.bg = bg0
            · simp [hbg]
            · simp [hbg]
  exact fun cs x => H cs.length cs le_rfl x

theorem rowRuns_bg_mem :
    ∀ (n : Nat) (cs : List Cell), cs.length ≤ n → ∀ (x : Nat) r,
      r ∈ rowRuns x cs → ∃ c ∈ cs, c.bg = r.2.2 := by
  intro n
  induction n with
  | zero =>
      intro cs hlen x r hr
      have : cs = [] := List.eq_nil_of_length_eq_zero (Nat.le_zero.mp hlen)
      subst this
      simp [rowRuns] at hr
  | succ n ih =>
      intro cs hlen x r hr
      cases cs with
      | nil => simp [rowRuns] at hr
      | cons c rest =>
          rw [rowRuns] at hr
          rcases List.mem_cons.mp hr with h1 | h2
          · exact ⟨c, by simp, by rw [h1]⟩
          · have hdrop : (dropRunBg c.bg rest).length ≤ n := by
              have := dropRunBg_length_le c.bg rest
              simp only [List.length_cons] at hlen
              omega
            obtain ⟨c2, hc2, hbg⟩ := ih _ hdrop _ r h2
            exact ⟨c2, List.mem_cons_of_mem c (dropRunBg_subset c.bg rest c2 hc2),
              hbg⟩

theorem flatMap_eq_nil_of_forall {α β : Type _} (f : α → List β) :
    ∀ (l : List α), (∀ p ∈ l, f p = []) → l.flatMap f = [] := by
  intro l
  induction l with
  | nil => intro _; rfl
  | cons a rest ih =>
      intro h
      simp only [List.flatMap_cons, h a (by simp), List.nil_append]
      exact ih (fun p hp => h p (List.mem_cons_of_mem a hp))

/-- Claim C8: the renderer's background pass emits exactly the run
rectangles whose colour differs from the canvas base colour (the top-left
cell's background) — the emitted lines are the filtered run decomposition —
and on a grid whose cells all share the base background it emits nothing,
so the whole document contains no rectangle beyond the base canvas fill in
the header. -/
theorem c8_bg_runs :
    ∀ (cw chh pad cols rws : Nat) (cells : List (List Cell)),
      (bgSpanLines cw chh pad cols (bg0Of cells) cells =
        cells.enum.flatMap (fun p =>
          ((rowRuns 0 (p.2.take cols)).filter
            (fun r => r.2.2 ≠ bg0Of cells)).map
            (fun r => mkBgRect cw chh pad r.1 p.1 r.2.1 r.2.2))) ∧
      ((∀ row ∈ cells, ∀ c ∈ row, c.bg = bg0Of cells) →
        bgSpanLines cw chh pad cols (bg0Of cells) cells = [] ∧
        renderLines rws cols cw chh pad cells =
          headerLines rws cols cw chh pad cells ++ textLines chh pad cells ++
            ["</svg>"]) := by
  intro cw chh pad cols rws cells
  have heq : bgSpanLines cw chh pad cols (bg0Of cells) cells =
      cells.enum.flatMap (fun p =>
        ((rowRuns 0 (p.2.take cols)).filter
          (fun r => r.2.2 ≠ bg0Of cells)).map
          (fun r => mkBgRect cw chh pad r.1 p.1 r.2.1 r.2.2)) := by
    unfold bgSpanLines
    apply List.flatMap_congr ?_
    intro p _
    exact bgRowRects_eq_filter_runs cw chh pad (bg0Of cells) p.1 (p.2.take cols) 0
  refine ⟨heq, fun huni => ⟨?_, ?_⟩⟩
  · rw [heq]
    apply flatMap_eq_nil_of_forall
    intro p hp
    have hrow : p.2 ∈ cells := by
      have := List.mem_enum_iff_get?.mp hp
      exact List.get?_mem this
    have hfilter : (rowRuns 0 (p.2.take cols)).filter
        (fun r => r.2.2 ≠ bg0Of cells) = [] := by
      apply List.filter_eq_nil.mpr
      intro r hr
      obtain ⟨c, hc, hbg⟩ :=
        rowRuns_bg_mem (p.2.take cols).length _ le_rfl _ r hr
      have : c.bg = bg0Of cells :=
        huni p.2 hrow c (List.take_subset cols p.2 hc)
      simp [← hbg, this]
    rw [hfilter]
    rfl
  · have hsp : bgSpanLines cw chh pad cols (bg0Of cells) cells = [] := by
      rw [heq]
      apply flatMap_eq_nil_of_forall
      intro p hp
      have hrow : p.2 ∈ cells := by
        have := List.mem_enum_iff_get?.mp hp
        exact List.get?_mem this
      have hfilter : (rowRuns 0 (p.2.take cols)).filter
          (fun r => r.2.2 ≠ bg0Of cells) = [] := by
        apply List.filter_eq_nil.mpr
        intro r hr
        obtain ⟨c, hc, hbg⟩ :=
          rowRuns_bg_mem (p.2.take cols).length _ le_rfl _ r hr
        have : c.bg = bg0Of cells :=
          huni p.2 hrow c (List.take_subset cols p.2 hc)
        simp [← hbg, this]
      rw [hfilter]
      rfl
    unfold renderLines
    rw [hsp]
    simp

/-- Witness for C8: a fresh 2×2 grid has a uniform background, and its
rendering has an empty background-span section. -/
theorem c8_bg_runs_witness :
    bgSpanLines 9 16 10 2 (bg0Of (initEmu 2 2).cells) (initEmu 2 2).cells =
      [] ∧
    renderLines 2 2 9 16 10 (initEmu 2 2).cells =
      headerLines 2 2 9 16 10 (initEmu 2 2).cells ++
        textLines 16 10 (initEmu 2 2).cells ++ ["</svg>"] :=
  (c8_bg_runs 9 16 10 2 2 (initEmu 2 2).cells).2 (by decide)

theorem set_append_length {α : Type _} :
    ∀ (pre : List α) (t : α) (ts : List α) (c : α),
      (pre ++ t :: ts).set pre.length c = pre ++ c :: ts := by
  intro pre
  induction pre with
  | nil => intro t ts c; rfl
  | cons p ps ih =>
      intro t ts c
      simp only [List.cons_append, List.length_cons, List.set_cons_succ]
      rw [ih]

/-- `feed` consumes one byte at a time whenever the parser is not in the
OSC state (the two-byte lookahead only fires there). -/
theorem feedE_cons_of_ne_osc (st : Emu) (b : Nat) (rest : List Nat)
    (h : st.state ≠ PState.osc) :
    feedE st (b :: rest) =
      match stepByteE st b with
      | .error e => .error e
      | .ok st2 => feedE st2 rest := by
  cases rest with
  | nil =>
      show stepByteE st b = _
      cases hs : stepByteE st b with
      | error e => rfl
      | ok st2 => rfl
  | cons b2 rest2 =>
      rw [feedE]
      rw [if_neg (fun hc => h hc.1)]

/-- Feeding printable ASCII bytes in the normal state with default pending
attributes writes them, cell by cell, into the cursor row starting at the
cursor column. -/
theorem c4_aux :
    ∀ (bs : List Nat) (st : Emu) (pre tail0 : List Cell)
      (rows2 : List (List Cell)),
      (∀ b ∈ bs, 0x20 ≤ b ∧ b ≤ 0x7E) →
      st.state = PState.normal →
      st.cy = 0 → st.cx = pre.length →
      st.cells = (pre ++ tail0) :: rows2 →
      pre.length + tail0.length = st.cols →
      bs.length ≤ tail0.length →
      0 < st.rows →
      st.current_fg = (230, 230, 230) →
      st.current_bg = (10, 12, 16) →
      st.bold = false →
      feedE st bs = .ok { st with
        cx := pre.length + bs.length,
        cells := (pre ++ bs.map printCell ++ tail0.drop bs.length) :: rows2 } := by
  intro bs
  induction bs with
  | nil =>
      intro st pre tail0 rows2 _ _ _ hcx hcells _ _ _ _ _ _
      show Except.ok st = _
      simp only [List.map_nil, List.length_nil, List.drop_zero,
        List.nil_append, List.append_nil, Nat.add_zero]
      rw [← hcx, ← hcells]
  | cons b rest ih =>
      intro st pre tail0 rows2 hp hstate hcy hcx hcells hcols hlen hrows hfg
        hbg hbold
      have hb := hp b (by simp)
      cases tail0 with
      | nil => simp at hlen
      | cons t0 ts =>
          rw [feedE_cons_of_ne_osc st b _ (by rw [hstate]; intro hc; cases hc)]
          have hcxlt : st.cx < st.cols := by
            rw [hcx, ← hcols]
            simp only [List.length_cons]
            have : rest.length + 1 ≤ ts.length + 1 := by
              simpa using hlen
            omega
          have hstep : stepByteE st b = putCharE st (Char.ofNat b) := by
            unfold stepByteE
            rw [hstate]
            unfold stepNormalE
            rw [if_neg (by omega), if_neg (by omega), if_neg (by omega),
                if_neg (by omega), if_neg (by omega), if_neg (by omega),
                if_pos (Or.inl hb)]
          have hrowlen : st.cx < (pre ++ t0 :: ts).length := by
            rw [hcx]
            simp
          have hset : setCellE st st.cy st.cx
              { ch := Char.ofNat b, fg := st.current_fg,
                bg := st.current_bg, bold := st.bold } = .ok { st with
              cells := (pre ++ printCell b :: ts) :: rows2 } := by
            unfold setCellE
            rw [hcy, hcells]
            simp only [List.getElem?_cons_zero]
            rw [if_pos hrowlen]
            have hsetrow : (pre ++ t0 :: ts).set st.cx
                { ch := Char.ofNat b, fg := st.current_fg,
                  bg := st.current_bg, bold := st.bold } =
                pre ++ printCell b :: ts := by
              rw [hcx, set_append_length, hfg, hbg, hbold]
              rfl
            rw [List.set_cons_zero, hsetrow]
          have hput : putCharE st (Char.ofNat b) = .ok { st with
              cx := st.cx + 1,
              cells := (pre ++ printCell b :: ts) :: rows2 } := by
            unfold putCharE
            rw [if_neg (by omega : ¬ st.cx ≥ st.cols)]
            dsimp only
            rw [if_neg (by omega : ¬ st.cy ≥ st.rows)]
            dsimp only
            rw [hset]
          rw [hstep, hput]
          dsimp only
          have ihres := ih
            { st with cx := st.cx + 1,
                      cells := (pre ++ printCell b :: ts) :: rows2 }
            (pre ++ [printCell b]) ts rows2
            (fun x hx => hp x (List.mem_cons_of_mem b hx))
            hstate hcy (by simp [hcx]) (by simp)
            (by simp only [List.length_append, List.length_cons,
                  List.length_nil]; simp only [List.length_cons] at hcols
                omega)
            (by simpa using hlen) hrows hfg hbg hbold
          rw [ihres]
          simp only [Except.ok.injEq, Emu.mk.injEq, and_true, true_and,
            List.append_assoc, List.singleton_append, List.cons_append,
            List.length_append, List.length_cons, List.length_nil,
            List.length_map, List.drop_succ_cons, List.nil_append,
            List.map_cons, Nat.zero_add]
          omega

/-- Claim C4: feeding a sequence of printable ASCII bytes of length at most
`cols` into a freshly constructed grid leaves row 0 holding exactly those
characters in order from column 0, followed by untouched blank cells. -/
theorem c4_printable_row0 :
    ∀ (rws cols : Nat) (bs : List Nat),
      0 < rws →
      bs.length ≤ cols →
      (∀ b ∈ bs, 0x20 ≤ b ∧ b ≤ 0x7E) →
      (feedE (initEmu cols rws) bs).map (fun s => s.cells.headD []) =
        .ok (bs.map printCell ++
          List.replicate (cols - bs.length) defaultCell) := by
  intro rws cols bs hr hlen hp
  obtain ⟨n, rfl⟩ : ∃ n, rws = n + 1 := ⟨rws - 1, by omega⟩
  have hcells : (initEmu cols (n + 1)).cells =
      ([] ++ List.replicate cols defaultCell) ::
        List.replicate n (List.replicate cols defaultCell) := by
    simp [initEmu, List.replicate_succ]
  have h := c4_aux bs (initEmu cols (n + 1)) []
      (List.replicate cols defaultCell)
      (List.replicate n (List.replicate cols defaultCell)) hp rfl rfl rfl
      hcells (by simp [initEmu]) (by simpa using hlen)
      (by simp [initEmu]) rfl rfl rfl
  rw [h]
  simp [Except.map, List.drop_replicate]

/-- Witness for C4: feeding `"hi"` into a fresh 3×2 grid. -/
theorem c4_printable_row0_witness :
    (feedE (initEmu 3 2) [104, 105]).map (fun s => s.cells.headD []) =
      .ok ([104, 105].map printCell ++
        List.replicate (3 - [104, 105].length) defaultCell) :=
  c4_printable_row0 2 3 [104, 105] (by decide) (by decide) (by decide)

theorem setCellE_wf (st : Emu) (y x : Nat) (c : Cell) (h : WF st)
    (hy : y < st.rows) (hx : x < st.cols) :
    ∃ cells2, setCellE st y x c = .ok { st with cells := cells2 } ∧
      cells2.length = st.cells.length ∧
      (∀ row ∈ cells2, row.length = st.cols) := by
  obtain ⟨h1, h2, h3, h4, h5, h6, h7⟩ := h
  unfold setCellE
  have hylen : y < st.cells.length := by rw [h3]; exact hy
  have hrow : st.cells[y]? = some st.cells[y] := List.getElem?_eq_getElem hylen
  rw [hrow]
  dsimp only
  have hmem : st.cells[y] ∈ st.cells := List.getElem_mem hylen
  have hrlen : st.cells[y].length = st.cols := h4 _ hmem
  rw [if_pos (by rw [hrlen]; exact hx)]
  refine ⟨_, rfl, by simp, ?_⟩
  intro r hr
  rcases List.mem_or_eq_of_mem_set hr with hmem2 | heq
  · exact h4 r hmem2
  · rw [heq]
    simp [hrlen]

theorem scrollE_wf (st : Emu) (h : WF st) :
    ∃ cells2, scrollE st 1 = .ok { st with cells := cells2 } ∧
      cells2.length = st.cells.length ∧
      (∀ row ∈ cells2, row.length = st.cols) := by
  obtain ⟨h1, h2, h3, h4, h5, h6, h7⟩ := h
  cases hc : st.cells with
  | nil => rw [hc] at h3; simp at h3; omega
  | cons r0 rs =>
      refine ⟨rs ++ [List.replicate st.cols
        { ch := Char.ofNat 32, fg := st.current_fg, bg := st.current_bg,
          bold := st.bold }], ?_, ?_, ?_⟩
      · simp [scrollE, hc]
      · simp
      · intro r hr
        rcases List.mem_append.mp hr with hmem | hmem
        · exact h4 r (by rw [hc]; exact List.mem_cons_of_mem r0 hmem)
        · simp at hmem
          rw [hmem]
          simp

theorem newlineE_wf (st : Emu) (h : WF st) :
    ∃ cells2, newlineE st = .ok { st with
        cx := 0, cy := min (st.cy + 1) (st.rows - 1), cells := cells2 } ∧
      cells2.length = st.cells.length ∧
      (∀ row ∈ cells2, row.length = st.cols) := by
  have h0 := h
  obtain ⟨h1, h2, h3, h4, h5, h6, h7⟩ := h
  unfold newlineE
  by_cases hge : st.cy + 1 ≥ st.rows
  · rw [if_pos (by simpa using hge)]
    have hwf2 : WF { st with cx := 0, cy := st.rows - 1 } := by
      refine ⟨h1, h2, h3, h4, by simp, by simp; omega, ?_⟩
      simp only [savedOK] at h7 ⊢
      exact h7
    obtain ⟨cells2, hs, hlen, hrows⟩ :=
      scrollE_wf { st with cx := 0, cy := st.rows - 1 } hwf2
    refine ⟨cells2, ?_, hlen, hrows⟩
    rw [hs]
    have : min (st.cy + 1) (st.rows - 1) = st.rows - 1 := by omega
    rw [this]
  · rw [if_neg (by simpa using hge)]
    have : min (st.cy + 1) (st.rows - 1) = st.cy + 1 := by omega
    rw [this]
    exact ⟨st.cells, rfl, rfl, h4⟩

theorem putChar_write_wf (st : Emu) (ch : Char) (h : WF st)
    (hcx : st.cx < st.cols) :
    ∃ st2, (match setCellE st st.cy st.cx
        { ch := ch, fg := st.current_fg, bg := st.current_bg,
          bold := st.bold } with
      | Except.error e => (Except.error e : Except PyErr Emu)
      | Except.ok st3 => Except.ok { st3 with cx := st3.cx + 1 }) =
        Except.ok st2 ∧
      WF st2 := by
  have h0 := h
  obtain ⟨h1, h2, h3, h4, h5, h6, h7⟩ := h
  obtain ⟨c3, hset, hlen3, hrows3⟩ := setCellE_wf st st.cy st.cx
    { ch := ch, fg := st.current_fg, bg := st.current_bg, bold := st.bold }
    h0 h6 hcx
  rw [hset]
  dsimp only
  refine ⟨_, rfl, h1, h2, ?_, hrows3, ?_, h6, ?_⟩
  · show c3.length = st.rows
    rw [hlen3, h3]
  · show st.cx + 1 ≤ st.cols
    omega
  · simpa [savedOK] using h7

theorem putCharE_wf (st : Emu) (ch : Char) (h : WF st) :
    ∃ st2, putCharE st ch = .ok st2 ∧ WF st2 := by
  have h0 := h
  obtain ⟨h1, h2, h3, h4, h5, h6, h7⟩ := h
  unfold putCharE
  by_cases hwrap : st.cx ≥ st.cols
  · obtain ⟨c2, hnl, hlen, hrows⟩ := newlineE_wf st h0
    rw [if_pos hwrap, hnl]
    dsimp only
    rw [if_neg (by simp; omega)]
    have hwf1 : WF { st with
        cx := 0, cy := min (st.cy + 1) (st.rows - 1), cells := c2 } := by
      refine ⟨h1, h2, ?_, hrows, by simp, ?_, ?_⟩
      · show c2.length = st.rows
        rw [hlen, h3]
      · show min (st.cy + 1) (st.rows - 1) < st.rows
        omega
      · simpa [savedOK] using h7
    obtain ⟨st2, hm, hwf2⟩ := putChar_write_wf _ ch hwf1 (by simpa using h2)
    exact ⟨st2, hm, hwf2⟩
  · rw [if_neg hwrap]
    dsimp only
    rw [if_neg (by omega : ¬ st.cy ≥ st.rows)]
    dsimp only
    exact putChar_write_wf st ch h0 (by omega)

theorem stepNormalE_wf (st : Emu) (b : Nat) (h : WF st) :
    ∃ st2, stepNormalE st b = .ok st2 ∧ WF st2 := by
  have h0 := h
  obtain ⟨h1, h2, h3, h4, h5, h6, h7⟩ := h
  unfold stepNormalE
  by_cases hesc : b = 0x1B
  · rw [if_pos hesc]
    exact ⟨_, rfl, h1, h2, h3, h4, h5, h6, by simpa [savedOK] using h7⟩
  rw [if_neg hesc]
  by_cases hcr : b = 0x0D
  · rw [if_pos hcr]
    exact ⟨_, rfl, h1, h2, h3, h4, by simp, h6, by simpa [savedOK] using h7⟩
  rw [if_neg hcr]
  by_cases hlf : b = 0x0A
  · rw [if_pos hlf]
    obtain ⟨c2, hnl, hlen, hrows⟩ := newlineE_wf st h0
    rw [hnl]
    refine ⟨_, rfl, h1, h2, ?_, hrows, by simp, ?_, ?_⟩
    · show c2.length = st.rows
      rw [hlen, h3]
    · show min (st.cy + 1) (st.rows - 1) < st.rows
      omega
    · simpa [savedOK] using h7
  rw [if_neg hlf]
  by_cases hbs : b = 0x08
  · rw [if_pos hbs]
    exact ⟨_, rfl, h1, h2, h3, h4, by show st.cx - 1 ≤ st.cols; omega, h6,
      by simpa [savedOK] using h7⟩
  rw [if_neg hbs]
  by_cases htab : b = 0x09
  · rw [if_pos htab]
    exact ⟨_, rfl, h1, h2, h3, h4,
      by show min (st.cols - 1) ((st.cx / 8 + 1) * 8) ≤ st.cols; omega, h6,
      by simpa [savedOK] using h7⟩
  rw [if_neg htab]
  by_cases hbel : b = 0x07
  · rw [if_pos hbel]
    exact ⟨st, rfl, h0⟩
  rw [if_neg hbel]
  by_cases hpr : (0x20 ≤ b ∧ b ≤ 0x7E) ∨ 0xA0 ≤ b
  · rw [if_pos hpr]
    exact putCharE_wf st (Char.ofNat b) h0
  · rw [if_neg hpr]
    exact ⟨st, rfl, h0⟩

theorem sgrStep_fields (st : Emu) (p : Nat) :
    (sgrStep st p).cols = st.cols ∧ (sgrStep st p).rows = st.rows ∧
    (sgrStep st p).cells = st.cells ∧ (sgrStep st p).cx = st.cx ∧
    (sgrStep st p).cy = st.cy ∧ (sgrStep st p).saved = st.saved := by
  unfold sgrStep
  split_ifs <;> exact ⟨rfl, rfl, rfl, rfl, rfl, rfl⟩

theorem sgrLoop_fields :
    ∀ (st : Emu) (ps : List Nat),
      (sgrLoop st ps).cols = st.cols ∧ (sgrLoop st ps).rows = st.rows ∧
      (sgrLoop st ps).cells = st.cells ∧ (sgrLoop st ps).cx = st.cx ∧
      (sgrLoop st ps).cy = st.cy ∧ (sgrLoop st ps).saved = st.saved := by
  intro st ps
  induction st, ps using sgrLoop.induct with
  | case1 st => simp [sgrLoop]
  | case2 st p r g b rest2 hp ih =>
      rw [sgrLoop, if_pos hp]
      rcases ih with ⟨i1, i2, i3, i4, i5, i6⟩
      by_cases h38 : p = 38 <;> simp [h38] at i1 i2 i3 i4 i5 i6 ⊢ <;>
        exact ⟨i1, i2, i3, i4, i5, i6⟩
  | case3 st p r g b rest2 hp ih =>
      rw [sgrLoop, if_neg hp]
      obtain ⟨s1, s2, s3, s4, s5, s6⟩ := sgrStep_fields st p
      rcases ih with ⟨i1, i2, i3, i4, i5, i6⟩
      exact ⟨i1.trans s1, i2.trans s2, i3.trans s3, i4.trans s4,
        i5.trans s5, i6.trans s6⟩
  | case4 st p idx rest2 hp ih =>
      rw [sgrLoop, if_pos hp]
      rcases ih with ⟨i1, i2, i3, i4, i5, i6⟩
      by_cases h38 : p = 38 <;> simp [h38] at i1 i2 i3 i4 i5 i6 ⊢ <;>
        exact ⟨i1, i2, i3, i4, i5, i6⟩
  | case5 st p idx rest2 hp ih =>
      rw [sgrLoop, if_neg hp]
      obtain ⟨s1, s2, s3, s4, s5, s6⟩ := sgrStep_fields st p
      rcases ih with ⟨i1, i2, i3, i4, i5, i6⟩
      exact ⟨i1.trans s1, i2.trans s2, i3.trans s3, i4.trans s4,
        i5.trans s5, i6.trans s6⟩
  | case6 st p rest hm1 hm2 ih =>
      rw [sgrLoop]
      · obtain ⟨s1, s2, s3, s4, s5, s6⟩ := sgrStep_fields st p
        rcases ih with ⟨i1, i2, i3, i4, i5, i6⟩
        exact ⟨i1.trans s1, i2.trans s2, i3.trans s3, i4.trans s4,
          i5.trans s5, i6.trans s6⟩
      · exact hm1
      · exact hm2

theorem eraseLoopE_wf :
    ∀ (xs : List Nat) (st : Emu), WF st → (∀ x ∈ xs, x < st.cols) →
      ∃ st2, eraseLoopE st xs = .ok st2 ∧ WF st2 := by
  intro xs
  induction xs with
  | nil => intro st h _; exact ⟨st, rfl, h⟩
  | cons x restXs ih =>
      intro st h hx
      simp only [eraseLoopE]
      by_cases hcy : st.cy < st.rows
      · rw [if_pos hcy]
        obtain ⟨c2, hset, hlen, hrows⟩ := setCellE_wf st st.cy x
          { ch := Char.ofNat 32, fg := st.current_fg, bg := st.current_bg,
            bold := st.bold } h hcy (hx x (by simp))
        rw [hset]
        obtain ⟨h1, h2, h3, h4, h5, h6, h7⟩ := h
        have hwf2 : WF { st with cells := c2 } := by
          refine ⟨h1, h2, ?_, hrows, h5, h6, ?_⟩
          · show c2.length = st.rows
            rw [hlen, h3]
          · simpa [savedOK] using h7
        exact ih _ hwf2 (fun z hz => hx z (List.mem_cons_of_mem x hz))
      · rw [if_neg hcy]
        exact ih st h (fun z hz => hx z (List.mem_cons_of_mem x hz))

theorem pyFieldToInt_shape (p : List Char) :
    (∃ v, pyFieldToInt p = .ok v) ∨ pyFieldToInt p = .error .valueError := by
  unfold pyFieldToInt pyIntE
  by_cases h1 : pyIsdigit p = true
  · rw [if_pos h1]
    by_cases h2 : p.all Char.isDigit
    · rw [if_pos h2]; exact Or.inl ⟨_, rfl⟩
    · rw [if_neg h2]; exact Or.inr rfl
  · rw [if_neg h1]; exact Or.inl ⟨_, rfl⟩

theorem mapM_pyFieldToInt_shape :
    ∀ (fs : List (List Char)),
      (∃ l, fs.mapM pyFieldToInt = .ok l) ∨
        fs.mapM pyFieldToInt = .error .valueError := by
  intro fs
  induction fs with
  | nil => exact Or.inl ⟨[], rfl⟩
  | cons f rest ih =>
      rw [List.mapM_cons]
      rcases pyFieldToInt_shape f with ⟨v, hv⟩ | hv
      · rw [hv]
        rcases ih with ⟨l, hl⟩ | hl
        · rw [hl]; exact Or.inl ⟨v :: l, rfl⟩
        · rw [hl]; exact Or.inr rfl
      · rw [hv]; exact Or.inr rfl

theorem csiIntsE_shape (raw : List Char) :
    (∃ l, csiIntsE raw = .ok l) ∨ csiIntsE raw = .error .valueError := by
  unfold csiIntsE
  exact mapM_pyFieldToInt_shape _

theorem range'_lt_cols (s t cols : Nat) :
    ∀ x ∈ List.range' s (min t cols - s), x < cols := by
  intro x hx
  rcases List.mem_range'.mp hx with ⟨i, hi, rfl⟩
  omega

theorem initEmu_wf (cols rws : Nat) (hr : 1 ≤ rws) (hc : 1 ≤ cols) :
    WF (initEmu cols rws) := by
  refine ⟨hr, hc, by simp [initEmu], ?_, by simp [initEmu],
    by simp [initEmu]; omega, by simp [initEmu, savedOK]⟩
  intro row hrow
  simp only [initEmu] at hrow
  rw [List.eq_of_mem_replicate hrow]
  simp [initEmu]

theorem handleCsiE_wf (st : Emu) (final : Char) (raw : List Char)
    (h : WF st) :
    (∃ st2, handleCsiE st final raw = .ok st2 ∧ WF st2) ∨
      handleCsiE st final raw = .error .valueError := by
  have h0 := h
  obtain ⟨h1, h2, h3, h4, h5, h6, h7⟩ := h
  unfold handleCsiE
  rcases csiIntsE_shape raw with ⟨ints, hi⟩ | hi
  · rw [hi]
    dsimp only
    refine Or.inl ?_
    by_cases hHf : final = Char.ofNat 72 ∨ final = Char.ofNat 102
    · rw [if_pos hHf]
      refine ⟨_, rfl, h1, h2, h3, h4, ?_, ?_, by simpa [savedOK] using h7⟩
      · show min (st.cols - 1) (ints.getD 1 1 - 1) ≤ st.cols
        omega
      · show min (st.rows - 1) (ints.getD 0 1 - 1) < st.rows
        omega
    rw [if_neg hHf]
    by_cases hA : final = Char.ofNat 65
    · rw [if_pos hA]
      refine ⟨_, rfl, h1, h2, h3, h4, h5, ?_, by simpa [savedOK] using h7⟩
      show st.cy - ints.getD 0 1 < st.rows
      omega
    rw [if_neg hA]
    by_cases hB : final = Char.ofNat 66
    · rw [if_pos hB]
      refine ⟨_, rfl, h1, h2, h3, h4, h5, ?_, by simpa [savedOK] using h7⟩
      show min (st.rows - 1) (st.cy + ints.getD 0 1) < st.rows
      omega
    rw [if_neg hB]
    by_cases hC : final = Char.ofNat 67
    · rw [if_pos hC]
      refine ⟨_, rfl, h1, h2, h3, h4, ?_, h6, by simpa [savedOK] using h7⟩
      show min (st.cols - 1) (st.cx + ints.getD 0 1) ≤ st.cols
      omega
    rw [if_neg hC]
    by_cases hD : final = Char.ofNat 68
    · rw [if_pos hD]
      refine ⟨_, rfl, h1, h2, h3, h4, ?_, h6, by simpa [savedOK] using h7⟩
      show st.cx - ints.getD 0 1 ≤ st.cols
      omega
    rw [if_neg hD]
    by_cases hJ : final = Char.ofNat 74
    · rw [if_pos hJ]
      by_cases hmode : ints.getD 0 0 = 2
      · rw [if_pos hmode]
        exact ⟨_, rfl, initEmu_wf st.cols st.rows h1 h2⟩
      · rw [if_neg hmode]
        exact ⟨st, rfl, h0⟩
    rw [if_neg hJ]
    by_cases hK : final = Char.ofNat 75
    · rw [if_pos hK]
      by_cases hmode : ints.getD 0 0 = 0 ∨ ints.getD 0 0 = 1 ∨
          ints.getD 0 0 = 2
      · rw [if_pos hmode]
        exact eraseLoopE_wf _ st h0 (range'_lt_cols _ _ _)
      · rw [if_neg hmode]
        exact ⟨st, rfl, h0⟩
    rw [if_neg hK]
    by_cases hsgr : final = Char.ofNat 109
    · rw [if_pos hsgr]
      obtain ⟨f1, f2, f3, f4, f5, f6⟩ :=
        sgrLoop_fields st (if ints.isEmpty then [0] else ints)
      refine ⟨_, rfl, ?_, ?_, ?_, ?_, ?_, ?_, ?_⟩
      · show 1 ≤ (applySgr st ints).rows
        unfold applySgr
        rw [f2]; exact h1
      · show 1 ≤ (applySgr st ints).cols
        unfold applySgr
        rw [f1]; exact h2
      · show (applySgr st ints).cells.length = (applySgr st ints).rows
        unfold applySgr
        rw [f2, f3]; exact h3
      · show ∀ row ∈ (applySgr st ints).cells,
          row.length = (applySgr st ints).cols
        unfold applySgr
        rw [f1, f3]; exact h4
      · show (applySgr st ints).cx ≤ (applySgr st ints).cols
        unfold applySgr
        rw [f1, f4]; exact h5
      · show (applySgr st ints).cy < (applySgr st ints).rows
        unfold applySgr
        rw [f2, f5]; exact h6
      · show savedOK (applySgr st ints) = true
        unfold applySgr savedOK
        rw [f1, f2, f6]
        unfold savedOK at h7
        exact h7
    rw [if_neg hsgr]
    by_cases hsave : final = Char.ofNat 115
    · rw [if_pos hsave]
      refine ⟨_, rfl, h1, h2, h3, h4, h5, h6, ?_⟩
      simp [savedOK, h5, h6]
    rw [if_neg hsave]
    by_cases hrestore : final = Char.ofNat 117
    · rw [if_pos hrestore]
      cases hsv : st.saved with
      | none => exact ⟨st, rfl, h0⟩
      | some sv =>
          dsimp only
          have hb : sv.1 ≤ st.cols ∧ sv.2 < st.rows := by
            unfold savedOK at h7
            rw [hsv] at h7
            simpa using h7
          refine ⟨_, rfl, h1, h2, h3, h4, hb.1, hb.2, ?_⟩
          simpa [savedOK, hsv] using h7
    rw [if_neg hrestore]
    exact ⟨st, rfl, h0⟩
  · rw [hi]
    exact Or.inr rfl

theorem stepByteE_wf (st : Emu) (b : Nat) (h : WF st) :
    (∃ st2, stepByteE st b = .ok st2 ∧ WF st2) ∨
      stepByteE st b = .error .valueError := by
  have h0 := h
  obtain ⟨h1, h2, h3, h4, h5, h6, h7⟩ := h
  unfold stepByteE
  cases hst : st.state with
  | normal => exact Or.inl (stepNormalE_wf st b h0)
  | esc =>
      refine Or.inl ⟨_, rfl, ?_⟩
      unfold stepEsc
      split_ifs <;>
        exact ⟨h1, h2, h3, h4, h5, h6, by simpa [savedOK] using h7⟩
  | osc =>
      by_cases hbel : b = 0x07
      · rw [if_pos hbel]
        exact Or.inl ⟨_, rfl, h1, h2, h3, h4, h5, h6,
          by simpa [savedOK] using h7⟩
      · rw [if_neg hbel]
        exact Or.inl ⟨st, rfl, h0⟩
  | csi =>
      by_cases hfin : 0x40 ≤ b ∧ b ≤ 0x7E
      · rw [if_pos hfin]
        rcases handleCsiE_wf st (Char.ofNat b) st.csi_buf h0 with
          ⟨st2, hcs, hwf2⟩ | hcs
        · rw [hcs]
          dsimp only
          obtain ⟨g1, g2, g3, g4, g5, g6, g7⟩ := hwf2
          exact Or.inl ⟨_, rfl, g1, g2, g3, g4, g5, g6,
            by simpa [savedOK] using g7⟩
        · rw [hcs]
          exact Or.inr rfl
      · rw [if_neg hfin]
        exact Or.inl ⟨_, rfl, h1, h2, h3, h4, h5, h6,
          by simpa [savedOK] using h7⟩

/-- Claim C1 as amended (the cursor invariant `feed` actually maintains):
from any well-formed state, feeding any byte sequence keeps `cy` in
`[0, rows-1]` and `cx` in `[0, cols]` — `cx` may transiently equal `cols`
after a write in the last column, wrapping before the next write — and no
byte sequence can make the emulator perform an out-of-bounds access
(`feed` never raises `IndexError`; the only possible failure is the
`ValueError` of claim C3). -/
theorem c1_cursor_clamp_amended :
    ∀ (data : List Nat) (st : Emu), WF st →
      (∀ st2, feedE st data = .ok st2 → WF st2) ∧
      feedE st data ≠ .error .indexError := by
  have H : ∀ (n : Nat) (data : List Nat), data.length ≤ n →
      ∀ st : Emu, WF st →
      (∀ st2, feedE st data = .ok st2 → WF st2) ∧
      feedE st data ≠ .error .indexError := by
    intro n
    induction n with
    | zero =>
        intro data hlen st hwf
        have hd : data = [] :=
          List.eq_nil_of_length_eq_zero (Nat.le_zero.mp hlen)
        subst hd
        refine ⟨fun st2 h2 => ?_, by simp [feedE]⟩
        simp only [feedE] at h2
        injection h2 with h3
        rwa [← h3]
    | succ n ih =>
        intro data hlen st hwf
        cases data with
        | nil =>
            refine ⟨fun st2 h2 => ?_, by simp [feedE]⟩
            simp only [feedE] at h2
            injection h2 with h3
            rwa [← h3]
        | cons b rest =>
            cases rest with
            | nil =>
                have hone : feedE st [b] = stepByteE st b := rfl
                rcases stepByteE_wf st b hwf with ⟨st2, hs, hwf2⟩ | hs
                · refine ⟨fun st3 h3 => ?_, ?_⟩
                  · rw [hone, hs] at h3
                    injection h3 with h4
                    rwa [← h4]
                  · rw [hone, hs]
                    simp
                · refine ⟨fun st3 h3 => ?_, ?_⟩
                  · rw [hone, hs] at h3
                    simp at h3
                  · rw [hone, hs]
                    simp
            | cons b2 rest2 =>
                by_cases hosc : st.state = PState.osc ∧ b = 0x1B ∧ b2 = 0x5C
                · rw [feedE, if_pos hosc]
                  obtain ⟨h1, h2, h3, h4, h5, h6, h7⟩ := hwf
                  have hwf2 : WF { st with
                      osc_active := false, state := PState.normal } :=
                    ⟨h1, h2, h3, h4, h5, h6, by simpa [savedOK] using h7⟩
                  exact ih rest2 (by simp at hlen ⊢; omega) _ hwf2
                · rw [feedE, if_neg hosc]
                  rcases stepByteE_wf st b hwf with ⟨st2, hs, hwf2⟩ | hs
                  · rw [hs]
                    exact ih (b2 :: rest2) (by simp at hlen ⊢; omega) st2 hwf2
                  · rw [hs]
                    exact ⟨fun st3 h3 => by simp at h3, by simp⟩
  intro data st hwf
  exact H data.length data le_rfl st hwf

/-- Witness for the amended C1 at a fresh 2×2 grid. -/
theorem c1_cursor_clamp_witness :
    WF (initEmu 2 2) ∧ feedE (initEmu 2 2) [97, 98] ≠ .error .indexError :=
  ⟨by unfold WF; decide,
   (c1_cursor_clamp_amended [97, 98] (initEmu 2 2) (by unfold WF; decide)).2⟩

/-- Claim C1 (status: corrected).  The counterexample: writing two printable
bytes into a fresh 2×2 grid legitimately leaves `cx = 2 = cols`, outside
the claimed range `[0, cols-1]` — `_put_char` advances the cursor past the
last column and defers the wrap to the next write. -/
theorem c1_cursor_clamp_counterexample :
    (feedE (initEmu 2 2) [97, 98]).map (fun s => (s.cx, s.cols)) =
      .ok (2, 2) ∧
    (feedE (initEmu 2 2) [97, 98]).map (fun s => decide (s.cx < s.cols)) =
      .ok false :=
  ⟨by decide, by decide⟩
